import Mathlib

/-!
# Verification of `ParquetS3DataSet` (kedro/contrib/io/parquet/parquet_s3.py)

A shallow embedding of the connector class and of the abstract
versioned-dataset subsystem its specification describes.  Pure, value-level
behaviour of `__init__`, `_describe`, and the path resolution is translated
directly from the Python source; the components the source merely delegates
to (the versioned path resolution of `kedro.io.core.AbstractVersionedDataSet`
and the columnar codec) are modelled from the specification, each marked as
such in its doc comment.
-/

set_option autoImplicit false

/-- A Python `dict` with string keys and values, as an insertion-ordered
association list (Python dicts preserve insertion order and have unique
keys). -/
abbrev Dict := List (String × String)

/-- `kedro.io.core.Version`: a pair of optional pinned load/save version
strings. -/
structure Version where
  load : Option String
  save : Option String
deriving DecidableEq

/-- Remove trailing `/` characters, as Python's `str.rstrip("/")`. -/
def rstripSlashes (s : String) : String :=
  ⟨(s.data.reverse.dropWhile (· == '/')).reverse⟩

/-- Embedding of `S3FileSystem._strip_protocol` (the fsspec helper the
constructor calls at line 107): strip trailing slashes, then remove an
`s3://` scheme prefix when present. -/
def stripProtocol (path : String) : String :=
  let p := (rstripSlashes path).data
  if ("s3://".data).isPrefixOf p then ⟨p.drop 5⟩ else ⟨p⟩

/-- Split a character list on `/`, as Python's `str.split("/")` (an empty
input yields one empty segment). -/
def splitSlash : List Char → List (List Char)
  | [] => [[]]
  | c :: cs =>
    if c == '/' then [] :: splitSlash cs
    else
      match splitSlash cs with
      | [] => [[c]]
      | s :: ss => (c :: s) :: ss

/-- `str(PurePosixPath(s))`: split on `/`, drop empty and `.` segments,
keep the root (`/`, or the POSIX-special `//`), and render `.` for an
empty result. -/
def posixNormalize (s : String) : String :=
  let segs := (splitSlash s.data).filter (fun seg => !seg.isEmpty && !(seg == ['.']))
  let root : List Char :=
    if ("//".data).isPrefixOf s.data && !(("///".data).isPrefixOf s.data) then "//".data
    else if ("/".data).isPrefixOf s.data then "/".data
    else []
  let body := List.intercalate "/".data segs
  if root.isEmpty && body.isEmpty then "." else ⟨root ++ body⟩

/-- The path computed by `__init__` lines 107–108:
`path = _s3._strip_protocol(filepath)` followed by
`path = PurePosixPath("{}/{}".format(bucket_name, path) if bucket_name else path)`.
Python's truthiness means `bucket_name=None` and `bucket_name=""` both skip
the join. -/
def resolvedLocation (filepath : String) (bucket_name : Option String) : String :=
  let path := stripProtocol filepath
  let b := bucket_name.getD ""
  posixNormalize (if b == "" then path else b ++ "/" ++ path)

/-- Python dict lookup `d.get(k)` on an association list (keys are unique
in a Python dict, so first match suffices). -/
def dictLookup {α : Type} (k : String) : List (String × α) → Option α
  | [] => none
  | (k', v) :: d => if k = k' then some v else dictLookup k d

/-- Python dict insertion `d[k] = v`: update the value of the (unique)
existing occurrence of the key in place, otherwise append the pair. -/
def dictInsert (d : Dict) (k v : String) : Dict :=
  match d with
  | [] => [(k, v)]
  | (k', v') :: rest => if k' = k then (k', v) :: rest else (k', v') :: dictInsert rest k v

/-- Python `{**d, **u}`: start from `d` and insert every pair of `u` in
order; a key of `u` overrides the value in `d` wholesale (no deep merge). -/
def pythonMerge (d u : Dict) : Dict :=
  u.foldl (fun acc p => dictInsert acc p.1 p.2) d

/-- `default_load_args = {}` (line 116). -/
def default_load_args : Dict := []

/-- `default_save_args = {}` (line 117). -/
def default_save_args : Dict := []

/-- The immutable fields a `ParquetS3DataSet` instance holds after
`__init__` (value view; aliasing behaviour is modelled separately on an
explicit heap below). -/
structure ParquetS3DataSet where
  filepath : String
  version : Option Version
  loadArgs : Dict
  saveArgs : Dict
  credentials : Dict
deriving DecidableEq

/-- Value view of `ParquetS3DataSet.__init__` (lines 105–128):
`_credentials = deepcopy(credentials) or {}`, path resolution as in
`resolvedLocation`, and merge of the user option dicts over the empty
defaults (`{**default, **user}` when the user dict is supplied, the default
alone otherwise). -/
def mkParquetS3DataSet (filepath : String) (bucket_name : Option String)
    (credentials : Option Dict) (load_args : Option Dict)
    (save_args : Option Dict) (version : Option Version) :
    ParquetS3DataSet :=
  { filepath := resolvedLocation filepath bucket_name
    version := version
    loadArgs :=
      match load_args with
      | some la => pythonMerge default_load_args la
      | none => default_load_args
    saveArgs :=
      match save_args with
      | some sa => pythonMerge default_save_args sa
      | none => default_save_args
    credentials := credentials.getD [] }

/-- The values `_describe` (lines 130–136) can put in its result dict. -/
inductive DescribeVal
  | str (s : String)
  | dict (d : Dict)
  | ver (v : Option Version)
deriving DecidableEq

/-- `_describe` (lines 130–136): returns
`dict(filepath=..., load_args=..., save_args=..., version=...)`. -/
def ParquetS3DataSet.describe (ds : ParquetS3DataSet) : List (String × DescribeVal) :=
  [("filepath", .str ds.filepath),
   ("load_args", .dict ds.loadArgs),
   ("save_args", .dict ds.saveArgs),
   ("version", .ver ds.version)]

/-! ## Heap view of `__init__`

Python dicts are heap objects; whether `__init__` aliases the caller's
dicts or stores fresh ones is an object-identity question, modelled on an
explicit heap of dict cells addressed by `Nat` references. -/

/-- A heap of Python dict objects. -/
structure Heap where
  cells : List Dict

/-- Dereference: the dict stored at reference `r`. -/
def Heap.read (h : Heap) (r : Nat) : Dict :=
  (h.cells.getD r [])

/-- In-place mutation of the dict object at reference `r` (what a caller
does to its own dict after construction). -/
def Heap.write (h : Heap) (r : Nat) (d : Dict) : Heap :=
  ⟨h.cells.set r d⟩

/-- Allocate a fresh dict object, returning the new heap and its
reference. -/
def Heap.alloc (h : Heap) (d : Dict) : Heap × Nat :=
  (⟨h.cells ++ [d]⟩, h.cells.length)

/-- The references an instance holds to its `_credentials`, `_load_args`
and `_save_args` dict objects. -/
structure DataSetRefs where
  credRef : Nat
  loadArgsRef : Nat
  saveArgsRef : Nat

/-- Heap view of `__init__` lines 105 and 116–125:
`_credentials = deepcopy(credentials) or {}` stores a freshly allocated
dict (a copy of the caller's when one is supplied, a fresh `{}` literal
otherwise), and each of `{**default_load_args, **load_args}` /
`default_load_args` itself is likewise a freshly constructed dict — never
an alias of a caller-owned object. -/
def initRefs (h : Heap) (credentials load_args save_args : Option Nat) :
    Heap × DataSetRefs :=
  let acred := h.alloc ((credentials.map h.read).getD [])
  let ala := acred.1.alloc
    (match load_args with
     | some r => pythonMerge default_load_args (h.read r)
     | none => default_load_args)
  let asa := ala.1.alloc
    (match save_args with
     | some r => pythonMerge default_save_args (h.read r)
     | none => default_save_args)
  (asa.1, ⟨acred.2, ala.2, asa.2⟩)

/-! ## Codec boundary (modelled from the spec)

The columnar encode/decode engine is an external collaborator of this
fragment (`pyarrow`/`pandas`, reached through `_save` lines 144–152 and
`_load` lines 138–142); its implementation is not under this repository's
source. The definitions below model the spec's Codec Boundary (§4.3): a
structured batch of named, typed columns and ordered rows, serialized
self-delimitingly into a token stream, with the compression choice — the
one schema-irrelevant option modelled — recorded in a header so that it is
round-trip transparent for any decoding option set. -/

/-- Modelled from the spec: a per-column logical type. -/
inductive LType
  | intT
  | strT
deriving DecidableEq

/-- Modelled from the spec: a cell value of a structured batch. -/
inductive Value
  | vInt (z : Int)
  | vStr (s : String)
deriving DecidableEq

/-- Modelled from the spec: a named, typed column of the schema. -/
structure Column where
  name : String
  dtype : LType
deriving DecidableEq

/-- Modelled from the spec: an in-memory tabular dataset — named, typed
columns and ordered rows (`StructuredBatch` of the glossary). -/
structure StructuredBatch where
  schema : List Column
  rows : List (List Value)
deriving DecidableEq

/-- The byte stream crossing the codec boundary, abstracted as a stream of
unbounded tokens. -/
abbrev ByteStream := List Nat

/-- Serialize an integer into one token: even tokens are the non-negative
integers, odd tokens the negative ones. -/
def encInt (z : Int) : ByteStream :=
  [if 0 ≤ z then 2 * z.toNat else 2 * (-z).toNat - 1]

/-- Serialize a list: length prefix, then the serialized items in order. -/
def encListTok {α : Type} (enc : α → ByteStream) (l : List α) : ByteStream :=
  l.length :: (l.map enc).flatten

/-- Serialize a string: length prefix, then one token per character. -/
def encStr (s : String) : ByteStream :=
  encListTok (fun c => [c.toNat]) s.data

/-- Serialize a logical type tag. -/
def encLType : LType → ByteStream
  | .intT => [0]
  | .strT => [1]

/-- Serialize a cell value, tagged by its kind. -/
def encValue : Value → ByteStream
  | .vInt z => 0 :: encInt z
  | .vStr s => 1 :: encStr s

/-- Serialize a schema column: name, then type tag. -/
def encColumn (c : Column) : ByteStream :=
  encStr c.name ++ encLType c.dtype

/-- Serialize a whole batch: schema, then rows (order preserved). -/
def serializeBatch (b : StructuredBatch) : ByteStream :=
  encListTok encColumn b.schema ++ encListTok (encListTok encValue) b.rows

/-- Read one token. -/
def decNat : ByteStream → Option (Nat × ByteStream)
  | [] => none
  | n :: r => some (n, r)

/-- Read one integer token (inverse of `encInt`). -/
def decInt : ByteStream → Option (Int × ByteStream)
  | [] => none
  | n :: r =>
    some (if n % 2 = 0 then (Int.ofNat (n / 2), r) else (-(Int.ofNat ((n + 1) / 2)), r))

/-- Read one character token. -/
def decChar : ByteStream → Option (Char × ByteStream)
  | [] => none
  | n :: r => some (Char.ofNat n, r)

/-- Read exactly `n` items with the given item decoder. -/
def decCount {α : Type} (dec : ByteStream → Option (α × ByteStream)) :
    Nat → ByteStream → Option (List α × ByteStream)
  | 0, s => some ([], s)
  | n + 1, s =>
    match dec s with
    | none => none
    | some (a, s1) =>
      match decCount dec n s1 with
      | none => none
      | some (as, s2) => some (a :: as, s2)

/-- Read a length-prefixed list (inverse of `encListTok`). -/
def decListTok {α : Type} (dec : ByteStream → Option (α × ByteStream))
    (s : ByteStream) : Option (List α × ByteStream) :=
  match decNat s with
  | none => none
  | some (n, s1) => decCount dec n s1

/-- Read a length-prefixed string (inverse of `encStr`). -/
def decStr (s : ByteStream) : Option (String × ByteStream) :=
  match decListTok decChar s with
  | none => none
  | some (cs, s2) => some (⟨cs⟩, s2)

/-- Read a logical type tag. -/
def decLType : ByteStream → Option (LType × ByteStream)
  | 0 :: r => some (.intT, r)
  | 1 :: r => some (.strT, r)
  | _ => none

/-- Read one tagged cell value. -/
def decValue : ByteStream → Option (Value × ByteStream)
  | 0 :: r =>
    (match decInt r with
     | none => none
     | some (z, s) => some (.vInt z, s))
  | 1 :: r =>
    (match decStr r with
     | none => none
     | some (st, s) => some (.vStr st, s))
  | _ => none

/-- Read one schema column. -/
def decColumn (s : ByteStream) : Option (Column × ByteStream) :=
  match decStr s with
  | none => none
  | some (n, s1) =>
    match decLType s1 with
    | none => none
    | some (t, s2) => some (⟨n, t⟩, s2)

/-- Read a whole batch (inverse of `serializeBatch`). -/
def deserializeBatch (s : ByteStream) : Option (StructuredBatch × ByteStream) :=
  match decListTok decColumn s with
  | none => none
  | some (sch, s1) =>
    match decListTok (decListTok decValue) s1 with
    | none => none
    | some (rows, s2) => some (⟨sch, rows⟩, s2)

/-- Modelled from the spec: the compression choice read from an opaque
option set — the one schema-irrelevant codec setting modelled. -/
def compressionMode (o : Dict) : Nat :=
  if (dictLookup "compression" o).isSome then 1 else 0

/-- Modelled from the spec: `encode(batch, options) -> ByteStream` (§4.3).
A header token records the compression mode chosen by the options; mode 1
applies a reversible token transform to the payload. -/
def encode (b : StructuredBatch) (o : Dict) : ByteStream :=
  let payload := serializeBatch b
  if compressionMode o = 1 then 1 :: payload.map (· + 1) else 0 :: payload

/-- Modelled from the spec: `decode(stream, options) -> StructuredBatch`
(§4.3). The header token selects decompression, so any option set that
does not alter schema-relevant settings decodes the stream identically;
trailing garbage or an unknown header is a decode failure, not a wrong
batch. -/
def decode (s : ByteStream) (_o : Dict) : Option StructuredBatch :=
  match s with
  | 0 :: rest =>
    (match deserializeBatch rest with
     | some (b, []) => some b
     | _ => none)
  | 1 :: rest =>
    (match deserializeBatch (rest.map (· - 1)) with
     | some (b, []) => some b
     | _ => none)
  | _ => none

/-! ## Version resolution (modelled from the spec)

`_load`/`_save`/`_exists` resolve their paths through
`self._get_load_path()` / `self._get_save_path()`, inherited from
`kedro.io.core.AbstractVersionedDataSet` — code of this repository that is
not part of this source fragment. The resolver below is modelled from the
spec's Version Resolver (§4.2). -/

/-- Errors of the version resolver. -/
inductive DataSetError
  | versionNotFound
deriving DecidableEq

/-- Lexicographic strict order on character lists, comparing code
points. -/
def lexLt : List Char → List Char → Bool
  | [], [] => false
  | [], _ :: _ => true
  | _ :: _, [] => false
  | a :: as, b :: bs =>
    if a.toNat < b.toNat then true
    else if b.toNat < a.toNat then false
    else lexLt as bs

/-- Lexicographic strict order on version strings. -/
def versionLt (a b : String) : Bool :=
  lexLt a.data b.data

/-- The greater of two version strings. -/
def versionMax (a b : String) : String :=
  if versionLt a b then b else a

/-- The lexicographically greatest of `a` and the elements of `l`. -/
def selectLatestFrom (a : String) (l : List String) : String :=
  l.foldl versionMax a

/-- Modelled from the spec: select the lexicographically greatest existing
version segment, interpreted as most recent (§4.2); `none` when no
versions exist. -/
def selectLatest : List String → Option String
  | [] => none
  | v :: vs => some (selectLatestFrom v vs)

/-- Modelled from the spec: `resolve_for_load` (§4.2) — a pinned load
version is used directly; otherwise the lexicographically greatest
existing version is selected, and `VersionNotFoundError` is raised when
none exist. -/
def resolve_for_load (pin : Option String) (versions : List String) :
    Except DataSetError String :=
  match pin with
  | some v => .ok v
  | none =>
    match selectLatest versions with
    | some v => .ok v
    | none => .error .versionNotFound

/-- A save-version tag: mint time paired with the same-window tie-breaker
counter, ordered lexicographically. -/
abbrev VersionTag := Nat × Nat

/-- Strict lexicographic order on minted version tags. -/
def vtagLt (a b : VersionTag) : Prop :=
  a.1 < b.1 ∨ (a.1 = b.1 ∧ a.2 < b.2)

/-- The minting state a single instance carries: the clock reading of the
last minted tag and the tie-breaker counter within that reading. -/
structure MintState where
  time : Nat
  ctr : Nat

/-- Modelled from the spec: mint a fresh VersionTag from the current clock
reading (§4.2); a strictly newer reading restarts the counter, while a
reading within the same (or an earlier) resolution window increments the
monotonic tie-breaker instead. -/
def mint (st : MintState) (now : Nat) : MintState :=
  if st.time < now then ⟨now, 0⟩ else ⟨st.time, st.ctr + 1⟩

/-- Modelled from the spec: `resolve_for_save` (§4.2) — a pinned save
version is used verbatim; otherwise a fresh tag is minted. -/
def resolve_for_save (pin : Option VersionTag) (st : MintState) (now : Nat) :
    VersionTag × MintState :=
  match pin with
  | some v => (v, st)
  | none =>
    let st' := mint st now
    ((st'.time, st'.ctr), st')

/-- The tags minted by a sequence of unpinned `save()` calls on one
instance, at the given clock readings. -/
def mintAll (st : MintState) : List Nat → List VersionTag
  | [] => []
  | t :: ts =>
    let r := resolve_for_save none st t
    r.1 :: mintAll r.2 ts

/-! ## Versioned store and existence (modelled from the spec)

`_exists` (lines 154–156) asks the storage adapter whether the resolved
load path is a file; the store and the Facade's `exists`/`save` over it
are modelled from §4.4–§4.5: one dataset's slice of the store maps each
existing version tag to the bytes saved under it. -/

/-- One dataset's slice of the backing store: version tag ↦ stored
bytes. -/
abbrev Store := List (String × ByteStream)

/-- The version segments currently present under the dataset's
location. -/
def listVersions (store : Store) : List String :=
  store.map Prod.fst

/-- Modelled from the spec: `exists()` (§4.5) — resolve the load version
best-effort and probe the store; a failed resolution (no versions yet)
yields `false`, it is not an error (the function is total). -/
def existsDataSet (pin : Option String) (store : Store) : Bool :=
  match resolve_for_load pin (listVersions store) with
  | .error _ => false
  | .ok v => (dictLookup v store).isSome

/-- Modelled from the spec: `save(batch)` (§4.5) writes the encoded bytes
under a new version tag; older versions are not deleted. -/
def saveToStore (store : Store) (tag : String) (bytes : ByteStream) : Store :=
  (tag, bytes) :: store

/-! ## Lemmas: Python dict merge -/

theorem dictInsert_of_not_mem (k v : String) :
    ∀ d : Dict, (∀ p ∈ d, p.1 ≠ k) → dictInsert d k v = d ++ [(k, v)]
  | [], _ => rfl
  | (k0, v0) :: rest, h => by
    have hk0 : k0 ≠ k := h (k0, v0) (List.mem_cons_self _ _)
    simp only [dictInsert, if_neg hk0, List.cons_append, List.cons.injEq, true_and]
    exact dictInsert_of_not_mem k v rest fun p hp => h p (List.mem_cons_of_mem _ hp)

theorem pythonMerge_of_disjoint :
    ∀ (u d : Dict), (∀ p ∈ u, ∀ q ∈ d, p.1 ≠ q.1) →
      u.Pairwise (fun a b => a.1 ≠ b.1) → pythonMerge d u = d ++ u
  | [], d, _, _ => by simp [pythonMerge]
  | (k, v) :: u, d, hdisj, hnd => by
    simp only [pythonMerge, List.foldl_cons]
    rw [dictInsert_of_not_mem k v d
      (fun q hq => (hdisj (k, v) (List.mem_cons_self _ _) q hq).symm)]
    · have hrec : pythonMerge (d ++ [(k, v)]) u = (d ++ [(k, v)]) ++ u := by
        apply pythonMerge_of_disjoint u (d ++ [(k, v)])
        · intro p hp q hq
          rcases List.mem_append.mp hq with hq | hq
          · exact hdisj p (List.mem_cons_of_mem _ hp) q hq
          · have hq' : q = (k, v) := by simpa using hq
            subst hq'
            exact fun he => ((List.pairwise_cons.mp hnd).1 p hp) he.symm
        · exact (List.pairwise_cons.mp hnd).2
      calc List.foldl (fun acc p => dictInsert acc p.1 p.2) (d ++ [(k, v)]) u
          = pythonMerge (d ++ [(k, v)]) u := rfl
        _ = (d ++ [(k, v)]) ++ u := hrec
        _ = d ++ ((k, v) :: u) := by simp

theorem pythonMerge_nil_left (u : Dict) (h : u.Pairwise (fun a b => a.1 ≠ b.1)) :
    pythonMerge [] u = u := by
  have := pythonMerge_of_disjoint u [] (by intro p _ q hq; simp at hq) h
  simpa using this

theorem dictLookup_eq_none {α : Type} (k : String) :
    ∀ l : List (String × α), (∀ p ∈ l, p.1 ≠ k) → dictLookup k l = none
  | [], _ => rfl
  | (k0, v0) :: rest, h => by
    have hk : k ≠ k0 := fun he => (h (k0, v0) (List.mem_cons_self _ _)) he.symm
    simp only [dictLookup, if_neg hk]
    exact dictLookup_eq_none k rest fun p hp => h p (List.mem_cons_of_mem _ hp)

theorem dictLookup_dictInsert (k v k' : String) :
    ∀ d : Dict, dictLookup k' (dictInsert d k v) =
      if k' = k then some v else dictLookup k' d
  | [] => by
    by_cases h : k' = k <;> simp [dictInsert, dictLookup, h]
  | (k0, v0) :: rest => by
    by_cases h0 : k0 = k
    · subst h0
      by_cases h' : k' = k0 <;> simp [dictInsert, dictLookup, h']
    · by_cases h' : k' = k0
      · subst h'
        have hk : k' ≠ k := h0
        simp [dictInsert, if_neg h0, dictLookup, hk]
      · simp [dictInsert, if_neg h0, dictLookup, h', dictLookup_dictInsert k v k' rest]

theorem dictLookup_pythonMerge (k : String) :
    ∀ (u d : Dict), u.Pairwise (fun a b => a.1 ≠ b.1) →
      dictLookup k (pythonMerge d u) = (dictLookup k u).or (dictLookup k d)
  | [], d, _ => by simp [pythonMerge, dictLookup, Option.none_or]
  | (k0, v0) :: u, d, hnd => by
    have hhead : ∀ p ∈ u, p.1 ≠ k0 :=
      fun p hp => fun he => ((List.pairwise_cons.mp hnd).1 p hp) he.symm
    have hunfold : pythonMerge d ((k0, v0) :: u) = pythonMerge (dictInsert d k0 v0) u := rfl
    rw [hunfold,
        dictLookup_pythonMerge k u (dictInsert d k0 v0) (List.pairwise_cons.mp hnd).2,
        dictLookup_dictInsert]
    by_cases h : k = k0
    · subst h
      rw [dictLookup_eq_none k u hhead]
      simp [dictLookup, Option.none_or]
    · simp [dictLookup, h]

/-! ## Lemmas: lexicographic version order -/

theorem lexLt_irrefl : ∀ a : List Char, lexLt a a = false
  | [] => rfl
  | c :: cs => by simp [lexLt, lexLt_irrefl cs]

theorem lexLt_asymm : ∀ a b : List Char, lexLt a b = true → lexLt b a = false
  | [], [] => by simp [lexLt]
  | [], _ :: _ => by simp [lexLt]
  | _ :: _, [] => by simp [lexLt]
  | a :: as, b :: bs => by
    intro h
    simp only [lexLt] at h ⊢
    by_cases h1 : a.toNat < b.toNat
    · rw [if_neg (by omega : ¬ b.toNat < a.toNat), if_pos h1]
    · by_cases h2 : b.toNat < a.toNat
      · simp [h1, h2] at h
      · simp only [h1, h2, if_false] at h
        rw [if_neg h2, if_neg h1]
        exact lexLt_asymm as bs h

theorem lexLt_trans : ∀ a b c : List Char,
    lexLt a b = true → lexLt b c = true → lexLt a c = true
  | [], b, [], hab, hbc => by
    cases b with
    | nil => simp [lexLt] at hab
    | cons x xs => simp [lexLt] at hbc
  | [], _, _ :: _, _, _ => by simp [lexLt]
  | _ :: _, [], _, hab, _ => by simp [lexLt] at hab
  | _ :: _, _ :: _, [], _, hbc => by simp [lexLt] at hbc
  | a :: as, b :: bs, c :: cs, hab, hbc => by
    simp only [lexLt] at hab hbc ⊢
    by_cases h1 : a.toNat < b.toNat
    · by_cases h2 : b.toNat < c.toNat
      · simp [show a.toNat < c.toNat by omega]
      · by_cases h3 : c.toNat < b.toNat
        · simp [h2, h3] at hbc
        · have : b.toNat = c.toNat := by omega
          simp [show a.toNat < c.toNat by omega]
    · by_cases h1' : b.toNat < a.toNat
      · simp [h1, h1'] at hab
      · have hae : a.toNat = b.toNat := by omega
        simp only [h1, h1', if_false] at hab
        by_cases h2 : b.toNat < c.toNat
        · simp [show a.toNat < c.toNat by omega]
        · by_cases h3 : c.toNat < b.toNat
          · simp [h2, h3] at hbc
          · simp only [h2, h3, if_false] at hbc
            simp [show ¬ a.toNat < c.toNat by omega, show ¬ c.toNat < a.toNat by omega,
              lexLt_trans as bs cs hab hbc]

theorem lexLt_conn : ∀ a b : List Char, lexLt a b = false → lexLt b a = false → a = b
  | [], [], _, _ => rfl
  | [], _ :: _, hab, _ => by simp [lexLt] at hab
  | _ :: _, [], _, hba => by simp [lexLt] at hba
  | a :: as, b :: bs, hab, hba => by
    simp only [lexLt] at hab hba
    by_cases h1 : a.toNat < b.toNat
    · simp [h1] at hab
    · by_cases h2 : b.toNat < a.toNat
      · simp [h1, h2] at hba
      · have hae : a.toNat = b.toNat := by omega
        have hc : a = b := by
          apply Char.ext
          apply UInt32.eq_of_val_eq
          apply Fin.eq_of_val_eq
          exact hae
        simp only [h1, h2, if_false] at hab hba
        rw [hc, lexLt_conn as bs hab hba]

theorem versionLt_irrefl (a : String) : versionLt a a = false :=
  lexLt_irrefl a.data

theorem versionLt_asymm (a b : String) (h : versionLt a b = true) : versionLt b a = false :=
  lexLt_asymm a.data b.data h

theorem versionLt_trans (a b c : String) (h1 : versionLt a b = true)
    (h2 : versionLt b c = true) : versionLt a c = true :=
  lexLt_trans a.data b.data c.data h1 h2

theorem versionLt_conn (a b : String) (h1 : versionLt a b = false)
    (h2 : versionLt b a = false) : a = b := by
  have hd := lexLt_conn a.data b.data h1 h2
  cases a with
  | mk da =>
    cases b with
    | mk db => exact congrArg String.mk hd

theorem versionGe_trans (a b c : String) (h1 : versionLt a b = false)
    (h2 : versionLt b c = false) : versionLt a c = false := by
  cases hac : versionLt a c with
  | false => rfl
  | true =>
    exfalso
    cases hcb : versionLt c b with
    | true =>
      have hab := versionLt_trans a c b hac hcb
      rw [hab] at h1
      exact Bool.noConfusion h1
    | false =>
      have hbc : b = c := versionLt_conn b c h2 hcb
      subst hbc
      rw [hac] at h1
      exact Bool.noConfusion h1

theorem versionMax_choice (a b : String) : versionMax a b = a ∨ versionMax a b = b := by
  unfold versionMax
  cases h : versionLt a b <;> simp

theorem versionLt_versionMax_left (a b : String) : versionLt (versionMax a b) a = false := by
  unfold versionMax
  cases h : versionLt a b with
  | true => simpa using versionLt_asymm a b h
  | false => simpa using versionLt_irrefl a

theorem versionLt_versionMax_right (a b : String) : versionLt (versionMax a b) b = false := by
  unfold versionMax
  cases h : versionLt a b with
  | true => simpa using versionLt_irrefl b
  | false => simpa using h

theorem selectLatestFrom_choice : ∀ (l : List String) (a : String),
    selectLatestFrom a l = a ∨ selectLatestFrom a l ∈ l
  | [], _ => Or.inl rfl
  | x :: l, a => by
    have hr : selectLatestFrom a (x :: l) = selectLatestFrom (versionMax a x) l := rfl
    rw [hr]
    rcases selectLatestFrom_choice l (versionMax a x) with h | h
    · rw [h]
      rcases versionMax_choice a x with h2 | h2
      · exact Or.inl h2
      · exact Or.inr (by rw [h2]; exact List.mem_cons_self _ _)
    · exact Or.inr (List.mem_cons_of_mem _ h)

theorem selectLatestFrom_ge : ∀ (l : List String) (a x : String),
    x = a ∨ x ∈ l → versionLt (selectLatestFrom a l) x = false
  | [], a, x, h => by
    rcases h with h | h
    · subst h; exact versionLt_irrefl x
    · simp at h
  | y :: l, a, x, h => by
    have hr : selectLatestFrom a (y :: l) = selectLatestFrom (versionMax a y) l := rfl
    rw [hr]
    have hmax : versionLt (selectLatestFrom (versionMax a y) l) (versionMax a y) = false :=
      selectLatestFrom_ge l (versionMax a y) (versionMax a y) (Or.inl rfl)
    rcases h with h | h
    · rw [h]
      exact versionGe_trans _ _ _ hmax (versionLt_versionMax_left a y)
    · rcases List.mem_cons.mp h with h | h
      · rw [h]
        exact versionGe_trans _ _ _ hmax (versionLt_versionMax_right a y)
      · exact selectLatestFrom_ge l (versionMax a y) x (Or.inr h)

/-! ## Lemmas: version minting -/

theorem vtagLt_mint (st : MintState) (t : Nat) :
    vtagLt (st.time, st.ctr) ((mint st t).time, (mint st t).ctr) := by
  unfold mint vtagLt
  by_cases h : st.time < t <;> simp [h]

theorem vtagLt_trans (a b c : VersionTag) (h1 : vtagLt a b) (h2 : vtagLt b c) :
    vtagLt a c := by
  unfold vtagLt at h1 h2 ⊢
  omega

theorem mintAll_gt (ts : List Nat) : ∀ (st : MintState) (x : VersionTag),
    x ∈ mintAll st ts → vtagLt (st.time, st.ctr) x := by
  induction ts with
  | nil => intro st x hx; simp [mintAll] at hx
  | cons t ts ih =>
    intro st x hx
    simp only [mintAll, List.mem_cons] at hx
    rcases hx with hx | hx
    · subst hx; exact vtagLt_mint st t
    · exact vtagLt_trans _ _ _ (vtagLt_mint st t) (ih (mint st t) x hx)

/-! ## Lemmas: store lookups and heap reads -/

theorem dictLookup_isSome_of_mem {α : Type} (k : String) :
    ∀ l : List (String × α), k ∈ l.map Prod.fst → (dictLookup k l).isSome = true
  | [], h => by simp at h
  | (k0, v0) :: rest, h => by
    by_cases hk : k = k0
    · simp [dictLookup, hk]
    · simp only [List.map_cons, List.mem_cons] at h
      rcases h with h | h
      · exact absurd h hk
      · simp only [dictLookup, if_neg hk]
        exact dictLookup_isSome_of_mem k rest h

theorem Heap.read_write_ne (h : Heap) (r q : Nat) (d : Dict) (hne : r ≠ q) :
    (h.write r d).read q = h.read q := by
  unfold Heap.read Heap.write
  simp [List.getD_eq_getElem?_getD, List.getElem?_set_ne hne]

theorem Heap.read_alloc3_first (l : List Dict) (c x y : Dict) :
    Heap.read ⟨((l ++ [c]) ++ [x]) ++ [y]⟩ l.length = c := by
  unfold Heap.read
  rw [List.getD_eq_getElem?_getD,
      List.getElem?_append_left (by simp),
      List.getElem?_append_left (by simp),
      List.getElem?_concat_length]
  rfl

theorem Heap.read_alloc3_second (l : List Dict) (c x y : Dict) :
    Heap.read ⟨((l ++ [c]) ++ [x]) ++ [y]⟩ (l.length + 1) = x := by
  unfold Heap.read
  rw [List.getD_eq_getElem?_getD,
      List.getElem?_append_left (by simp),
      show l.length + 1 = (l ++ [c]).length by simp,
      List.getElem?_concat_length]
  rfl

theorem Heap.read_alloc3_third (l : List Dict) (c x y : Dict) :
    Heap.read ⟨((l ++ [c]) ++ [x]) ++ [y]⟩ (l.length + 2) = y := by
  unfold Heap.read
  rw [List.getD_eq_getElem?_getD,
      show l.length + 2 = ((l ++ [c]) ++ [x]).length by simp,
      List.getElem?_concat_length]
  rfl

/-! ## Lemmas: codec round-trip -/

theorem decInt_encInt (z : Int) (r : ByteStream) : decInt (encInt z ++ r) = some (z, r) := by
  cases z with
  | ofNat n =>
    have h0 : (0 : Int) ≤ Int.ofNat n := Int.ofNat_nonneg n
    simp only [encInt, if_pos h0, List.cons_append, List.nil_append, decInt]
    have ht : (Int.ofNat n).toNat = n := rfl
    rw [ht, if_pos (by omega : 2 * n % 2 = 0)]
    have hdiv : 2 * n / 2 = n := by omega
    rw [hdiv]
  | negSucc n =>
    have h0 : ¬ (0 : Int) ≤ Int.negSucc n := (Int.negSucc_lt_zero n).not_le
    simp only [encInt, if_neg h0, List.cons_append, List.nil_append, decInt]
    have hneg : (-Int.negSucc n).toNat = n + 1 := by
      rw [Int.neg_negSucc]
      rfl
    rw [hneg]
    rw [if_neg (by omega : ¬ (2 * (n + 1) - 1) % 2 = 0)]
    have hdiv : (2 * (n + 1) - 1 + 1) / 2 = n + 1 := by omega
    rw [hdiv]
    have hns : -(Int.ofNat (n + 1)) = Int.negSucc n := by
      rw [Int.negSucc_eq]
      simp
    rw [hns]

theorem decChar_encChar (c : Char) (r : ByteStream) :
    decChar ([c.toNat] ++ r) = some (c, r) := by
  simp [decChar, Char.ofNat_toNat]

theorem decCount_encode {α : Type} (enc : α → ByteStream)
    (dec : ByteStream → Option (α × ByteStream))
    (H : ∀ a r, dec (enc a ++ r) = some (a, r)) :
    ∀ (l : List α) (r : ByteStream),
      decCount dec l.length ((l.map enc).flatten ++ r) = some (l, r)
  | [], r => by simp [decCount]
  | a :: l, r => by
    have h1 := H a ((l.map enc).flatten ++ r)
    have h2 := decCount_encode enc dec H l r
    simp [decCount, List.append_assoc, h1, h2]

theorem decListTok_encListTok {α : Type} (enc : α → ByteStream)
    (dec : ByteStream → Option (α × ByteStream))
    (H : ∀ a r, dec (enc a ++ r) = some (a, r)) (l : List α) (r : ByteStream) :
    decListTok dec (encListTok enc l ++ r) = some (l, r) := by
  simp only [encListTok, List.cons_append, decListTok, decNat]
  exact decCount_encode enc dec H l r

theorem decStr_encStr (s : String) (r : ByteStream) :
    decStr (encStr s ++ r) = some (s, r) := by
  simp only [encStr, decStr,
    decListTok_encListTok (fun c => [c.toNat]) decChar decChar_encChar s.data r]

theorem decLType_encLType (t : LType) (r : ByteStream) :
    decLType (encLType t ++ r) = some (t, r) := by
  cases t <;> simp [encLType, decLType]

theorem decValue_encValue (v : Value) (r : ByteStream) :
    decValue (encValue v ++ r) = some (v, r) := by
  cases v with
  | vInt z => simp [encValue, decValue, List.append_assoc, decInt_encInt]
  | vStr s => simp [encValue, decValue, List.append_assoc, decStr_encStr]

theorem decColumn_encColumn (c : Column) (r : ByteStream) :
    decColumn (encColumn c ++ r) = some (c, r) := by
  simp [encColumn, decColumn, List.append_assoc, decStr_encStr, decLType_encLType]

theorem deserializeBatch_serializeBatch (b : StructuredBatch) (r : ByteStream) :
    deserializeBatch (serializeBatch b ++ r) = some (b, r) := by
  simp [serializeBatch, deserializeBatch, List.append_assoc,
    decListTok_encListTok encColumn decColumn decColumn_encColumn,
    decListTok_encListTok (encListTok encValue) (decListTok decValue)
      (decListTok_encListTok encValue decValue decValue_encValue)]

theorem map_succ_pred : ∀ l : List Nat, (l.map (· + 1)).map (· - 1) = l
  | [] => rfl
  | n :: l => by simp [map_succ_pred l]

theorem map_succ_pred_comp (l : List Nat) :
    List.map ((fun x => x - 1) ∘ (fun x => x + 1)) l = l := by
  rw [← List.map_map]
  exact map_succ_pred l

/-! ## Claim theorems -/

/-- C1, counterexample. The claim says constructing with `bucket_name`
supplied while the filepath already embeds a conflicting bucket segment
raises `InvalidLocationError`. It does not: at the concrete input
`filepath = "s3://mybucket/data.parquet"`, `bucket_name = "other"` the
constructor (lines 105–111 contain no validation and no raise) returns
normally, resolving to the silent concatenation of both buckets. -/
theorem bucket_conflict_not_rejected_cex :
    (mkParquetS3DataSet "s3://mybucket/data.parquet" (some "other")
        none none none none).filepath = "other/mybucket/data.parquet" := by decide

/-- C1, amended. For every filepath and every non-empty `bucket_name` —
whether or not the filepath embeds a conflicting bucket segment — the
constructor performs no ambiguity detection and raises nothing: it
silently resolves to `bucket_name` joined with the scheme-stripped
filepath. -/
theorem bucket_conflict_silently_concatenated (fp b : String)
    (creds la sa : Option Dict) (v : Option Version) (hb : b ≠ "") :
    (mkParquetS3DataSet fp (some b) creds la sa v).filepath
      = posixNormalize (b ++ "/" ++ stripProtocol fp) := by
  have hbeq : (b == "") = false := by
    rw [beq_eq_false_iff_ne]
    exact hb
  simp [mkParquetS3DataSet, resolvedLocation, hbeq]

/-- Witness for the amended C1 at a concrete conflicting input. -/
theorem bucket_conflict_silently_concatenated_witness :
    (mkParquetS3DataSet "s3://mybucket/data.parquet" (some "other")
        none none none none).filepath
      = posixNormalize ("other" ++ "/" ++ stripProtocol "s3://mybucket/data.parquet") :=
  bucket_conflict_silently_concatenated "s3://mybucket/data.parquet" "other"
    none none none none (by decide)

/-- C2. The resolved dataset path equals the scheme-stripped filepath
(as a POSIX path) when `bucket_name` is absent, and equals `bucket_name`
joined as a POSIX path with the scheme-stripped filepath when a
(non-empty) `bucket_name` is supplied (`__init__` lines 107–108). -/
theorem resolved_path_spec (fp b : String) (creds la sa : Option Dict)
    (v : Option Version) (hb : b ≠ "") :
    (mkParquetS3DataSet fp none creds la sa v).filepath
      = posixNormalize (stripProtocol fp) ∧
    (mkParquetS3DataSet fp (some b) creds la sa v).filepath
      = posixNormalize (b ++ "/" ++ stripProtocol fp) := by
  constructor
  · rfl
  · have hbeq : (b == "") = false := by
      rw [beq_eq_false_iff_ne]
      exact hb
    simp [mkParquetS3DataSet, resolvedLocation, hbeq]

/-- Witness for C2 at concrete inputs. -/
theorem resolved_path_spec_witness :
    (mkParquetS3DataSet "s3://data/file.parquet" none none none none none).filepath
      = posixNormalize (stripProtocol "s3://data/file.parquet") ∧
    (mkParquetS3DataSet "s3://data/file.parquet" (some "bkt") none none none none).filepath
      = posixNormalize ("bkt" ++ "/" ++ stripProtocol "s3://data/file.parquet") :=
  resolved_path_spec "s3://data/file.parquet" "bkt" none none none none (by decide)

/-- C3 (spec-modelled codec). For every structured batch and any encoding
and decoding option sets, decoding what encode produced yields exactly the
original batch — schema, column order, names, per-column types, row order
and values — compression choice included, it is round-trip transparent. -/
theorem codec_round_trip (b : StructuredBatch) (o o' : Dict) :
    decode (encode b o) o' = some b := by
  have hser : deserializeBatch (serializeBatch b) = some (b, []) := by
    simpa using deserializeBatch_serializeBatch b []
  unfold encode
  by_cases hc : compressionMode o = 1
  · rw [if_pos hc]
    simp [decode, map_succ_pred, map_succ_pred_comp, hser]
  · rw [if_neg hc]
    simp [decode, hser]

/-- C4 (spec-modelled resolver). With no pinned load version, when the
versions present under the location are exactly `{v1 < v2 < v3}` (in any
listing order), load resolves to the lexicographically greatest version
`v3`. -/
theorem load_selects_latest (v1 v2 v3 : String) (l : List String)
    (h12 : versionLt v1 v2 = true) (h23 : versionLt v2 v3 = true)
    (hperm : l.Perm [v1, v2, v3]) :
    resolve_for_load none l = .ok v3 := by
  cases l with
  | nil =>
    have hlen := hperm.length_eq
    simp at hlen
  | cons v vs =>
    have hmem : selectLatestFrom v vs ∈ v :: vs := by
      rcases selectLatestFrom_choice vs v with h | h
      · rw [h]; exact List.mem_cons_self _ _
      · exact List.mem_cons_of_mem _ h
    have hmem3 : selectLatestFrom v vs ∈ [v1, v2, v3] := hperm.mem_iff.mp hmem
    have hv3 : v3 ∈ v :: vs := hperm.mem_iff.mpr (by simp)
    have hge : versionLt (selectLatestFrom v vs) v3 = false := by
      rcases List.mem_cons.mp hv3 with h | h
      · exact selectLatestFrom_ge vs v v3 (Or.inl h)
      · exact selectLatestFrom_ge vs v v3 (Or.inr h)
    have h13 : versionLt v1 v3 = true := versionLt_trans _ _ _ h12 h23
    simp only [List.mem_cons, List.mem_singleton, List.not_mem_nil, or_false] at hmem3
    have hm3 : selectLatestFrom v vs = v3 := by
      rcases hmem3 with h | h | h
      · exfalso; rw [h] at hge; rw [h13] at hge; exact Bool.noConfusion hge
      · exfalso; rw [h] at hge; rw [h23] at hge; exact Bool.noConfusion hge
      · exact h
    show Except.ok (selectLatestFrom v vs) = Except.ok v3
    rw [hm3]

/-- Witness for C4 at a concrete unordered listing. -/
theorem load_selects_latest_witness :
    resolve_for_load none ["2019-01-02T00.00.00", "2019-01-03T00.00.00", "2019-01-01T00.00.00"]
      = .ok "2019-01-03T00.00.00" :=
  load_selects_latest "2019-01-01T00.00.00" "2019-01-02T00.00.00" "2019-01-03T00.00.00"
    _ (by decide) (by decide) (by decide)

/-- C5 (spec-modelled minting). For every sequence of unpinned `save()`
calls on one instance — whatever the clock readings, including repeated
readings within one resolution window — the minted version tags are
strictly increasing in call order. -/
theorem save_tags_strictly_increasing (st : MintState) (ts : List Nat) :
    (mintAll st ts).Pairwise vtagLt := by
  induction ts generalizing st with
  | nil => exact List.Pairwise.nil
  | cons t ts ih =>
    show List.Pairwise vtagLt
      (((mint st t).time, (mint st t).ctr) :: mintAll (mint st t) ts)
    exact List.Pairwise.cons (fun x hx => mintAll_gt ts (mint st t) x hx) (ih (mint st t))

/-- C6 (spec-modelled store). `exists()` returns `false` — it is a total
Boolean, not an error — whenever zero versions are present under the
location, and returns `true` on the store produced by a successful
`save()`. -/
theorem exists_semantics :
    (∀ store : Store, listVersions store = [] → existsDataSet none store = false) ∧
    (∀ (store : Store) (tag : String) (bytes : ByteStream),
      existsDataSet none (saveToStore store tag bytes) = true) := by
  constructor
  · intro store hempty
    have hs : store = [] := by
      cases store with
      | nil => rfl
      | cons p l => simp [listVersions] at hempty
    subst hs
    rfl
  · intro store tag bytes
    have hres : resolve_for_load none (listVersions (saveToStore store tag bytes))
        = .ok (selectLatestFrom tag (listVersions store)) := rfl
    simp only [existsDataSet, hres]
    apply dictLookup_isSome_of_mem
    rcases selectLatestFrom_choice (listVersions store) tag with h | h
    · rw [h]
      show tag ∈ tag :: store.map Prod.fst
      exact List.mem_cons_self _ _
    · show selectLatestFrom tag (listVersions store) ∈ tag :: store.map Prod.fst
      exact List.mem_cons_of_mem _ h

/-- Witness for C6: the empty store and a store right after one save. -/
theorem exists_semantics_witness :
    existsDataSet none ([] : Store) = false ∧
    existsDataSet none (saveToStore [] "2019-01-01T00.00.00.000Z" [0, 1]) = true :=
  ⟨exists_semantics.1 [] rfl, exists_semantics.2 [] "2019-01-01T00.00.00.000Z" [0, 1]⟩

/-- C7. `_credentials` is a deep copy taken at construction (line 105):
the stored reference is a fresh cell, distinct from the caller's, so
mutating the caller's credential dict after construction leaves the
credentials the dataset observes exactly as they were at construction. -/
theorem credentials_defensive_copy (h : Heap) (r : Nat) (la sa : Option Nat)
    (d : Dict) (hr : r < h.cells.length) :
    (initRefs h (some r) la sa).2.credRef ≠ r ∧
    ((initRefs h (some r) la sa).1.write r d).read (initRefs h (some r) la sa).2.credRef
      = h.read r := by
  have hne : r ≠ h.cells.length := Nat.ne_of_lt hr
  have hcred : (initRefs h (some r) la sa).2.credRef = h.cells.length := rfl
  constructor
  · rw [hcred]
    exact fun he => hne he.symm
  · rw [hcred, Heap.read_write_ne _ _ _ _ hne]
    exact Heap.read_alloc3_first h.cells _ _ _

/-- Witness for C7: a one-cell heap holding the caller's credentials,
mutated after construction. -/
theorem credentials_defensive_copy_witness :
    (initRefs (Heap.mk [[("aws_access_key_id", "k")]]) (some 0) none none).2.credRef ≠ 0 ∧
    ((initRefs (Heap.mk [[("aws_access_key_id", "k")]]) (some 0) none none).1.write 0
        [("aws_access_key_id", "stolen")]).read
      (initRefs (Heap.mk [[("aws_access_key_id", "k")]]) (some 0) none none).2.credRef
      = (Heap.mk [[("aws_access_key_id", "k")]]).read 0 :=
  credentials_defensive_copy (Heap.mk [[("aws_access_key_id", "k")]]) 0 none none
    [("aws_access_key_id", "stolen")] (by decide)

/-- C8. `_describe` (lines 130–136) returns exactly the immutable
configuration — resolved location, load and save option sets, version
spec — and is invariant under the credentials, so no credential content
can appear in it. -/
theorem describe_spec (ds : ParquetS3DataSet) (c : Dict) :
    (ds.describe).map Prod.fst = ["filepath", "load_args", "save_args", "version"] ∧
    ParquetS3DataSet.describe { ds with credentials := c } = ds.describe ∧
    ds.describe = [("filepath", DescribeVal.str ds.filepath),
      ("load_args", DescribeVal.dict ds.loadArgs),
      ("save_args", DescribeVal.dict ds.saveArgs),
      ("version", DescribeVal.ver ds.version)] :=
  ⟨rfl, rfl, rfl⟩

/-- C9. The effective option sets are the documented (empty) defaults
merged with the user-supplied dict, the user value winning wholesale per
key with no deep merge; hence they equal the user dict when supplied and
the empty dict when not (lines 116–125). -/
theorem effective_options_spec (fp : String) (u_load u_save : Dict)
    (hl : u_load.Pairwise (fun a b => a.1 ≠ b.1))
    (hs : u_save.Pairwise (fun a b => a.1 ≠ b.1)) :
    (∀ (d u : Dict) (k : String), u.Pairwise (fun a b => a.1 ≠ b.1) →
        dictLookup k (pythonMerge d u) = (dictLookup k u).or (dictLookup k d)) ∧
    (mkParquetS3DataSet fp none none (some u_load) (some u_save) none).loadArgs = u_load ∧
    (mkParquetS3DataSet fp none none (some u_load) (some u_save) none).saveArgs = u_save ∧
    (mkParquetS3DataSet fp none none none none none).loadArgs = [] ∧
    (mkParquetS3DataSet fp none none none none none).saveArgs = [] := by
  refine ⟨fun d u k hu => dictLookup_pythonMerge k u d hu, ?_, ?_, rfl, rfl⟩
  · show pythonMerge default_load_args u_load = u_load
    exact pythonMerge_nil_left u_load hl
  · show pythonMerge default_save_args u_save = u_save
    exact pythonMerge_nil_left u_save hs

/-- Witness for C9 with concrete user option dicts. -/
theorem effective_options_spec_witness :
    (mkParquetS3DataSet "f.parquet" none none (some [("columns", "a")])
        (some [("compression", "GZIP")]) none).loadArgs = [("columns", "a")] ∧
    (mkParquetS3DataSet "f.parquet" none none (some [("columns", "a")])
        (some [("compression", "GZIP")]) none).saveArgs = [("compression", "GZIP")] :=
  ⟨(effective_options_spec "f.parquet" [("columns", "a")] [("compression", "GZIP")]
      (by decide) (by decide)).2.1,
   (effective_options_spec "f.parquet" [("columns", "a")] [("compression", "GZIP")]
      (by decide) (by decide)).2.2.1⟩

/-- C10. The stored `_load_args`/`_save_args` are freshly constructed
merged dicts (lines 116–125), not aliases of the caller's dicts: their
references differ from the caller's, and mutating the caller's dicts
after construction leaves the stored option sets equal to the merge taken
at construction time. -/
theorem option_args_not_aliased (h : Heap) (rla rsa : Nat) (cred : Option Nat)
    (d : Dict) (h1 : rla < h.cells.length) (h2 : rsa < h.cells.length) :
    (initRefs h cred (some rla) (some rsa)).2.loadArgsRef ≠ rla ∧
    (initRefs h cred (some rla) (some rsa)).2.saveArgsRef ≠ rsa ∧
    ((initRefs h cred (some rla) (some rsa)).1.write rla d).read
        (initRefs h cred (some rla) (some rsa)).2.loadArgsRef
      = pythonMerge default_load_args (h.read rla) ∧
    ((initRefs h cred (some rla) (some rsa)).1.write rsa d).read
        (initRefs h cred (some rla) (some rsa)).2.saveArgsRef
      = pythonMerge default_save_args (h.read rsa) := by
  have hla : (initRefs h cred (some rla) (some rsa)).2.loadArgsRef
      = h.cells.length + 1 := by
    show (h.cells ++ [(cred.map h.read).getD []]).length = h.cells.length + 1
    simp
  have hsa : (initRefs h cred (some rla) (some rsa)).2.saveArgsRef
      = h.cells.length + 2 := by
    show ((h.cells ++ [(cred.map h.read).getD []])
        ++ [pythonMerge default_load_args (h.read rla)]).length = h.cells.length + 2
    simp
  refine ⟨?_, ?_, ?_, ?_⟩
  · rw [hla]; omega
  · rw [hsa]; omega
  · rw [hla, Heap.read_write_ne _ _ _ _ (by omega : rla ≠ h.cells.length + 1)]
    exact Heap.read_alloc3_second h.cells _ _ _
  · rw [hsa, Heap.read_write_ne _ _ _ _ (by omega : rsa ≠ h.cells.length + 2)]
    exact Heap.read_alloc3_third h.cells _ _ _

/-- Witness for C10: a two-cell heap holding the caller's option dicts,
both mutated after construction. -/
theorem option_args_not_aliased_witness :
    (initRefs (Heap.mk [[("columns", "a")], [("compression", "GZIP")]])
        none (some 0) (some 1)).2.loadArgsRef ≠ 0 ∧
    (initRefs (Heap.mk [[("columns", "a")], [("compression", "GZIP")]])
        none (some 0) (some 1)).2.saveArgsRef ≠ 1 ∧
    ((initRefs (Heap.mk [[("columns", "a")], [("compression", "GZIP")]])
        none (some 0) (some 1)).1.write 0 [("columns", "zzz")]).read
        (initRefs (Heap.mk [[("columns", "a")], [("compression", "GZIP")]])
          none (some 0) (some 1)).2.loadArgsRef
      = pythonMerge default_load_args
          ((Heap.mk [[("columns", "a")], [("compression", "GZIP")]]).read 0) ∧
    ((initRefs (Heap.mk [[("columns", "a")], [("compression", "GZIP")]])
        none (some 0) (some 1)).1.write 1 [("columns", "zzz")]).read
        (initRefs (Heap.mk [[("columns", "a")], [("compression", "GZIP")]])
          none (some 0) (some 1)).2.saveArgsRef
      = pythonMerge default_save_args
          ((Heap.mk [[("columns", "a")], [("compression", "GZIP")]]).read 1) :=
  option_args_not_aliased (Heap.mk [[("columns", "a")], [("compression", "GZIP")]])
    0 1 none [("columns", "zzz")] (by decide) (by decide)
